import Mathlib

/-!
# ollama-model-viewer: the `ollama ps` table parser and the size converter

A shallow embedding of `parseOllamaPs` and `parseSizeToGiB` from `main.go`.

* A Go `string` is a sequence of bytes; it is modelled as `Str = List Nat`
  (each element a byte value, below 256). Offsets and lengths are byte counts,
  as in Go.
* The Go standard-library calls the two functions make (`strings.ReplaceAll`,
  `strings.TrimSpace`, `strings.Split`, `strings.ToUpper`, `strings.Index`,
  `strings.HasSuffix`, `strings.TrimSuffix`, `strconv.ParseFloat`) are modelled
  from their documented behaviour. The Unicode case table used by
  `strings.ToUpper` on text with non-ASCII bytes is taken as a parameter
  (`unicodeUpper`).
* `float64` is modelled as IEEE 754 binary64 with round-to-nearest-even.
* A slice expression out of range makes Go panic; the model returns `none`.
-/

namespace OllamaViewer

/-! ## Strings -/

/-- A Go string: its bytes. -/
abbrev Str := List Nat

/-- UTF-8 encoding of one code point. -/
def utf8Encode (c : Nat) : Str :=
  if c < 0x80 then [c]
  else if c < 0x800 then [0xC0 + c / 64, 0x80 + c % 64]
  else if c < 0x10000 then [0xE0 + c / 4096, 0x80 + c / 64 % 64, 0x80 + c % 64]
  else [0xF0 + c / 262144, 0x80 + c / 4096 % 64, 0x80 + c / 64 % 64, 0x80 + c % 64]

/-- The bytes of a string literal (UTF-8, as Go source text is). -/
def bytes (s : String) : Str :=
  s.data.flatMap (fun c => utf8Encode c.toNat)

/-- Go `s[i:j]`: panics (here `none`) unless `i ≤ j ≤ len(s)`. -/
def slice (s : Str) (i j : Nat) : Option Str :=
  if i ≤ j ∧ j ≤ s.length then some ((s.drop i).take (j - i)) else none

/-- Go `s[i:]`: panics (here `none`) unless `i ≤ len(s)`. -/
def sliceFrom (s : Str) (i : Nat) : Option Str :=
  if i ≤ s.length then some (s.drop i) else none

/-- Model of `strings.HasSuffix`. -/
def HasSuffix (s suffix : Str) : Bool :=
  decide (suffix.length ≤ s.length) && (s.drop (s.length - suffix.length) == suffix)

/-- Model of `strings.TrimSuffix`. -/
def TrimSuffix (s suffix : Str) : Str :=
  if HasSuffix s suffix then s.take (s.length - suffix.length) else s

/-- Model of `strings.Index`: the byte offset of the first occurrence of
`substr` in `s`; `none` stands for Go's `-1`. -/
def Index : Str → Str → Option Nat
  | [], substr => if substr = [] then some 0 else none
  | c :: rest, substr =>
    if substr.isPrefixOf (c :: rest) then some 0
    else (Index rest substr).map (· + 1)

/-- Worker of `ReplaceAll`: `skip` bytes of a matched occurrence are still to
be passed over. -/
def replaceGo (old new : Str) : Nat → Str → Str
  | _, [] => []
  | k + 1, _ :: rest => replaceGo old new k rest
  | 0, c :: rest =>
    if old.isPrefixOf (c :: rest) then new ++ replaceGo old new (old.length - 1) rest
    else c :: replaceGo old new 0 rest

/-- Model of `strings.ReplaceAll` for a non-empty `old`: the non-overlapping
occurrences of `old`, found left to right, are replaced by `new`. -/
def ReplaceAll (s old new : Str) : Str :=
  replaceGo old new 0 s

/-- Worker of `Split`: the head of the result is the piece being read. -/
def splitGo (sep : Str) : Nat → Str → List Str
  | _, [] => [[]]
  | k + 1, _ :: rest => splitGo sep k rest
  | 0, c :: rest =>
    if sep.isPrefixOf (c :: rest) then [] :: splitGo sep (sep.length - 1) rest
    else
      match splitGo sep 0 rest with
      | l :: ls => (c :: l) :: ls
      | [] => [[c]]

/-- Model of `strings.Split` for a non-empty separator: the pieces between
the non-overlapping occurrences of `sep`; always at least one piece. -/
def Split (s sep : Str) : List Str :=
  splitGo sep 0 s

/-- The code points `unicode.IsSpace` accepts: the six ASCII ones, U+0085,
U+00A0, U+1680, U+2000..U+200A, U+2028, U+2029, U+202F, U+205F and U+3000. -/
def spaceCodePoints : List Nat :=
  [0x09, 0x0A, 0x0B, 0x0C, 0x0D, 0x20, 0x85, 0xA0, 0x1680,
   0x2000, 0x2001, 0x2002, 0x2003, 0x2004, 0x2005, 0x2006, 0x2007, 0x2008, 0x2009, 0x200A,
   0x2028, 0x2029, 0x202F, 0x205F, 0x3000]

/-- The UTF-8 encodings of the white-space code points. -/
def spaceRunes : List Str :=
  spaceCodePoints.map utf8Encode

/-- Width in bytes of the entry of `tbl` the string starts with, 0 when it
starts with none. -/
def spaceWidth (tbl : List Str) (s : Str) : Nat :=
  match tbl.find? (fun e => e.isPrefixOf s) with
  | some e => e.length
  | none => 0

/-- Drops the leading runs of entries of `tbl`; `skip` bytes of a matched
entry are still to be passed over. -/
def dropSpaces (tbl : List Str) : Nat → Str → Str
  | _, [] => []
  | k + 1, _ :: rest => dropSpaces tbl k rest
  | 0, c :: rest =>
    match spaceWidth tbl (c :: rest) with
    | 0 => c :: rest
    | w + 1 => dropSpaces tbl w rest

/-- Model of `strings.TrimSpace`: the leading and the trailing white-space
code points (as `unicode.IsSpace`) are removed. A byte that is part of no
valid encoding of such a code point stops the trimming, as Go's decoder
reads it as U+FFFD. -/
def TrimSpace (s : Str) : Str :=
  (dropSpaces (spaceRunes.map List.reverse) 0 (dropSpaces spaceRunes 0 s).reverse).reverse

/-- Whether every byte of `s` is below `utf8.RuneSelf`. -/
def isASCII (s : Str) : Bool :=
  s.all (fun c => decide (c < 128))

/-- Upper-case of one ASCII byte. -/
def asciiUpper (c : Nat) : Nat :=
  if 97 ≤ c ∧ c ≤ 122 then c - 32 else c

/-- Model of `strings.ToUpper`: text of ASCII bytes only is mapped byte by
byte; any other text goes through the Unicode case table, `unicodeUpper`. -/
def ToUpper (unicodeUpper : Str → Str) (s : Str) : Str :=
  if isASCII s then s.map asciiUpper else unicodeUpper s

/-! ## float64 -/

/-- An IEEE 754 binary64 value. `fin neg m e` is `(-1)^neg * m * 2^(e - 1074)`
with `m < 2^53`, `e ≤ 2045`, and `e = 0` when `m < 2^52`. -/
inductive F64 where
  | nan : F64
  | inf (neg : Bool) : F64
  | fin (neg : Bool) (m : Nat) (e : Nat) : F64
  deriving DecidableEq, Repr

namespace F64

/-- The value `+0.0`. -/
def zero : F64 := fin false 0 0

/-- Number of binary digits of `n`, by halving at most `fuel` times. -/
def bitLenFuel : Nat → Nat → Nat
  | 0, _ => 0
  | fuel + 1, n => if n = 0 then 0 else bitLenFuel fuel (n / 2) + 1

/-- Number of binary digits of `n` (0 for 0). -/
def bitLen (n : Nat) : Nat := bitLenFuel n n

/-- The binary64 value nearest to `(-1)^neg * p / q` (`q > 0`), ties to the
even significand; a magnitude past the largest finite value gives infinity. -/
@[irreducible]
def round (neg : Bool) (p q : Nat) : F64 :=
  let P := p * 2 ^ 1074
  let e := bitLen (P / q) - 53
  let D := q * 2 ^ e
  let m := P / D
  let r := P % D
  let m1 := if 2 * r > D ∨ (2 * r = D ∧ m % 2 = 1) then m + 1 else m
  let me := if m1 = 2 ^ 53 then (2 ^ 52, e + 1) else (m1, e)
  if me.2 > 2045 then inf neg else fin neg me.1 me.2

/-- The conversion of an exact constant `p / q` to `float64`. -/
def lit (p q : Nat) : F64 := round false p q

/-- IEEE 754 multiplication, round to nearest even. -/
def mul : F64 → F64 → F64
  | nan, _ => nan
  | _, nan => nan
  | inf a, inf b => inf (a != b)
  | inf a, fin b m _ => if m = 0 then nan else inf (a != b)
  | fin a m _, inf b => if m = 0 then nan else inf (a != b)
  | fin a m1 e1, fin b m2 e2 => round (a != b) (m1 * m2 * 2 ^ (e1 + e2)) (2 ^ 2148)

/-- IEEE 754 addition, round to nearest even. -/
def add : F64 → F64 → F64
  | nan, _ => nan
  | _, nan => nan
  | inf a, inf b => if a = b then inf a else nan
  | inf a, fin _ _ _ => inf a
  | fin _ _ _, inf b => inf b
  | fin a m1 e1, fin b m2 e2 =>
    let x : Int := if a then -((m1 * 2 ^ e1 : Nat) : Int) else ((m1 * 2 ^ e1 : Nat) : Int)
    let y : Int := if b then -((m2 * 2 ^ e2 : Nat) : Int) else ((m2 * 2 ^ e2 : Nat) : Int)
    let s := x + y
    if s = 0 then fin (a && b) 0 0
    else round (decide (s < 0)) s.natAbs (2 ^ 1074)

end F64

/-! ## strconv.ParseFloat -/

/-- Go `lower`, `c | 0x20`: the byte with the ASCII lower-case bit set. -/
def lower (c : Nat) : Nat := if c / 32 % 2 = 0 then c + 32 else c

/-- Go `commonPrefixLenIgnoreCase`: how many leading bytes of `s`, upper-case
ASCII letters lowered, agree with `pre`. -/
def commonPrefixLenIgnoreCase : Str → Str → Nat
  | c :: s, d :: pre =>
    if (if 65 ≤ c ∧ c ≤ 90 then c + 32 else c) = d then
      commonPrefixLenIgnoreCase s pre + 1
    else 0
  | _, _ => 0

/-- The infinity branch of Go `special`: `n` bytes of "infinity" are read,
only 3 when the word is not complete. -/
def specialInf (neg : Bool) (nsign : Nat) (s : Str) : Option (F64 × Nat) :=
  let n := commonPrefixLenIgnoreCase s (bytes "infinity")
  let n := if 3 < n ∧ n < 8 then 3 else n
  if n = 3 ∨ n = 8 then some (F64.inf neg, nsign + n) else none

/-- Go `special`: an optionally signed "inf" or "infinity", or "nan", in any
case, at the start of `s`, with the number of bytes read. -/
def special (s : Str) : Option (F64 × Nat) :=
  match s with
  | [] => none
  | c :: t =>
    if c = 43 then specialInf false 1 t
    else if c = 45 then specialInf true 1 t
    else if c = 105 ∨ c = 73 then specialInf false 0 s
    else if c = 110 ∨ c = 78 then
      if commonPrefixLenIgnoreCase s (bytes "nan") = 3 then some (F64.nan, 3) else none
    else none

/-- Whether `c` is an ASCII decimal digit. -/
def isDigit (c : Nat) : Bool := decide (48 ≤ c ∧ c ≤ 57)

/-- Whether `c` is one of the letters `a`..`f`, in either case. -/
def isHexLetter (c : Nat) : Bool := decide (97 ≤ lower c ∧ lower c ≤ 102)

/-- State of the digit loop of Go `readFloat`. The significand `mant` holds
every digit read after the leading zeros (Go keeps the first 19 and a flag
for the rest, and rounds as if it had them all). -/
structure Digits where
  sawdot : Bool
  sawdigits : Bool
  underscores : Bool
  nd : Nat
  dp : Int
  mant : Nat

/-- The digit loop of Go `readFloat`: digits, at most one point and
underscores, up to the first other byte; returns the state and the text left. -/
def readDigits (hex : Bool) : Digits → Str → Digits × Str
  | d, [] => (d, [])
  | d, c :: rest =>
    if c = 95 then readDigits hex { d with underscores := true } rest
    else if c = 46 then
      if d.sawdot then (d, c :: rest)
      else readDigits hex { d with sawdot := true, dp := d.nd } rest
    else if isDigit c then
      if c = 48 ∧ d.nd = 0 then
        readDigits hex { d with sawdigits := true, dp := d.dp - 1 } rest
      else
        readDigits hex { d with sawdigits := true, nd := d.nd + 1,
                                mant := d.mant * (if hex then 16 else 10) + (c - 48) } rest
    else if hex && isHexLetter c then
      readDigits hex { d with sawdigits := true, nd := d.nd + 1,
                              mant := d.mant * 16 + (lower c - 97 + 10) } rest
    else (d, c :: rest)

/-- The exponent digits of Go `readFloat`: digits and underscores; the value
stops growing once it has reached 10000. Returns the value, whether an
underscore was read, and the text left. -/
def readExpDigits : Nat → Bool → Str → Nat × Bool × Str
  | e, u, [] => (e, u, [])
  | e, u, c :: rest =>
    if c = 95 then readExpDigits e true rest
    else if isDigit c then readExpDigits (if e < 10000 then e * 10 + (c - 48) else e) u rest
    else (e, u, c :: rest)

/-- The exponent of Go `readFloat`, the text standing after the exponent
letter: an optional sign and at least one digit. Returns the signed value,
whether an underscore was read, and the text left; `none` when malformed. -/
def readExp (s : Str) : Option (Int × Bool × Str) :=
  match s with
  | [] => none
  | c :: t =>
    let esign : Int := if c = 45 then -1 else 1
    let s1 := if c = 43 ∨ c = 45 then t else s
    match s1 with
    | [] => none
    | d :: _ =>
      if isDigit d then
        let r := readExpDigits 0 false s1
        some ((r.1 : Int) * esign, r.2.1, r.2.2)
      else none

/-- The scan of Go `underscoreOK` after the sign and the base marker: `saw`
is the class of the last byte (48 a digit, 95 an underscore, 33 another
byte, 94 nothing yet). -/
def underscoreScan (hex : Bool) : Nat → Str → Bool
  | saw, [] => saw != 95
  | saw, c :: t =>
    if isDigit c || (hex && isHexLetter c) then underscoreScan hex 48 t
    else if c = 95 then
      if saw != 48 then false else underscoreScan hex 95 t
    else if saw = 95 then false
    else underscoreScan hex 33 t

/-- Go `underscoreOK`: every underscore stands between two digits, or
between a base marker and a digit. -/
def underscoreOK (s : Str) : Bool :=
  let s1 := match s with
    | c :: t => if c = 45 ∨ c = 43 then t else s
    | [] => s
  match s1 with
  | a :: b :: t =>
    if a = 48 ∧ (lower b = 98 ∨ lower b = 111 ∨ lower b = 120) then
      underscoreScan (lower b = 120) 48 t
    else underscoreScan false 94 s1
  | _ => underscoreScan false 94 s1

/-- The number a text denotes: sign, numerator and denominator of its exact
magnitude. -/
structure Parsed where
  neg : Bool
  num : Nat
  den : Nat

/-- The exact magnitude `mant * base ^ k` as a fraction. -/
def scaled (neg : Bool) (mant base : Nat) (k : Int) : Parsed :=
  { neg := neg, num := mant * base ^ k.toNat, den := base ^ (-k).toNat }

/-- The end of Go `readFloat`: the underscores of the text read are checked,
and the number is `mant * base ^ k`. `rest` is the text of `s` left unread. -/
def finishFloat (s : Str) (neg hex : Bool) (d : Digits) (e : Int) (u : Bool) (rest : Str) :
    Option (Parsed × Str) :=
  let dp : Int := if d.sawdot then d.dp else d.nd
  let k : Int := if hex then 4 * (dp - d.nd) else dp - d.nd
  if (d.underscores || u) && !underscoreOK (s.take (s.length - rest.length)) then none
  else some (scaled neg d.mant (if hex then 2 else 10) (k + e), rest)

/-- Go `readFloat` after the sign and the base marker: the digits of `s2`,
then the exponent, which a hexadecimal number must have. -/
def readNumber (s : Str) (neg hex : Bool) (s2 : Str) : Option (Parsed × Str) :=
  let r := readDigits hex ⟨false, false, false, 0, 0, 0⟩ s2
  if !r.1.sawdigits then none
  else
    match r.2 with
    | c :: t =>
      if lower c = (if hex then 112 else 101) then
        match readExp t with
        | none => none
        | some (e, u, rest) => finishFloat s neg hex r.1 e u rest
      else if hex then none
      else finishFloat s neg hex r.1 0 false (c :: t)
    | [] => if hex then none else finishFloat s neg hex r.1 0 false []

/-- Go `readFloat`: a decimal or hexadecimal floating-point number at the
start of `s`. Returns the number read, exactly, and the text left; `none`
when `s` starts with no well-formed number. -/
def readFloat (s : Str) : Option (Parsed × Str) :=
  let neg := match s with
    | c :: _ => decide (c = 45)
    | [] => false
  let s1 := match s with
    | c :: t => if c = 43 ∨ c = 45 then t else s
    | [] => s
  let hex := match s1 with
    | a :: b :: _ :: _ => decide (a = 48 ∧ lower b = 120)
    | _ => false
  readNumber s neg hex (if hex then s1.drop 2 else s1)

/-- Model of `strconv.ParseFloat(s, 64)`: the whole of `s` must be a number;
the result is the nearest `float64`. `none` stands for a non-nil error:
a syntax error, or a range error when the nearest value is an infinity. -/
def ParseFloat (s : Str) : Option F64 :=
  match special s with
  | some (v, n) => if n = s.length then some v else none
  | none =>
    match readFloat s with
    | none => none
    | some (p, rest) =>
      if rest ≠ [] then none
      else
        match F64.round p.neg p.num p.den with
        | F64.inf _ => none
        | v => some v

/-! ## The program -/

/-- The record `OllamaPsModel` of `main.go`. -/
structure OllamaPsModel where
  Name : Str
  ID : Str
  Size : Str
  Processor : Str
  Until : Str
  deriving DecidableEq, Repr

/-- The function `parseSizeToGiB` of `main.go`. The multipliers are Go
constant expressions, evaluated exactly and then converted to `float64`:
`1.0`, `0.931323`, `1.0 / 1024.0` and `(1.0 / 1024.0) * 0.931323`. The two
log lines have no effect on the result. -/
def parseSizeToGiB (unicodeUpper : Str → Str) (sizeStr : Str) : F64 :=
  let sizeStr := ToUpper unicodeUpper (TrimSpace sizeStr)
  let unit : Option (Str × F64) :=
    if HasSuffix sizeStr (bytes "GIB") then
      some (TrimSuffix sizeStr (bytes "GIB"), F64.lit 1 1)
    else if HasSuffix sizeStr (bytes "GB") then
      some (TrimSuffix sizeStr (bytes "GB"), F64.lit 931323 1000000)
    else if HasSuffix sizeStr (bytes "MIB") then
      some (TrimSuffix sizeStr (bytes "MIB"), F64.lit 1 1024)
    else if HasSuffix sizeStr (bytes "MB") then
      some (TrimSuffix sizeStr (bytes "MB"), F64.lit 931323 1024000000)
    else none
  match unit with
  | none => F64.zero
  | some (valueStr, multiplier) =>
    match ParseFloat (TrimSpace valueStr) with
    | none => F64.zero
    | some val => F64.mul val multiplier

/-- The body of the row loop of `parseOllamaPs` for a row that is not
skipped: the five slices, trimmed. `none` when a slice is out of range. -/
def parseRow (nameIndex idIndex sizeIndex processorIndex untilIndex : Nat) (line : Str) :
    Option OllamaPsModel := do
  let name ← slice line nameIndex idIndex
  let id ← slice line idIndex sizeIndex
  let sizeStr ← slice line sizeIndex processorIndex
  let processor ← slice line processorIndex untilIndex
  let until_ ← sliceFrom line untilIndex
  pure { Name := TrimSpace name, ID := TrimSpace id, Size := TrimSpace sizeStr,
         Processor := TrimSpace processor, Until := TrimSpace until_ }

/-- The row loop of `parseOllamaPs`, from the state `(models, totalSizeGiB)`. -/
def parseRows (unicodeUpper : Str → Str)
    (nameIndex idIndex sizeIndex processorIndex untilIndex : Nat) :
    List Str → List OllamaPsModel → F64 → Option (List OllamaPsModel × F64)
  | [], models, totalSizeGiB => some (models, totalSizeGiB)
  | line :: rest, models, totalSizeGiB =>
    if line.length < untilIndex then
      parseRows unicodeUpper nameIndex idIndex sizeIndex processorIndex untilIndex
        rest models totalSizeGiB
    else
      match parseRow nameIndex idIndex sizeIndex processorIndex untilIndex line with
      | none => none
      | some m =>
        parseRows unicodeUpper nameIndex idIndex sizeIndex processorIndex untilIndex
          rest (models ++ [m]) (F64.add totalSizeGiB (parseSizeToGiB unicodeUpper m.Size))

/-- The lines `parseOllamaPs` works on: line endings normalised, the text
trimmed, split at the line feeds. -/
def splitLines (output : Str) : List Str :=
  Split (TrimSpace (ReplaceAll output (bytes "\r\n") (bytes "\n"))) (bytes "\n")

/-- The function `parseOllamaPs` of `main.go`. `none` stands for a panic
(a slice out of range); the log line has no effect on the result, and a nil
slice is the empty list. -/
def parseOllamaPs (unicodeUpper : Str → Str) (output : Str) :
    Option (List OllamaPsModel × F64) :=
  match splitLines output with
  | [] => some ([], F64.zero)
  | [_] => some ([], F64.zero)
  | first :: rows =>
    let header := ToUpper unicodeUpper first
    match Index header (bytes "NAME"), Index header (bytes "ID"), Index header (bytes "SIZE"),
          Index header (bytes "PROCESSOR"), Index header (bytes "UNTIL") with
    | some nameIndex, some idIndex, some sizeIndex, some processorIndex, some untilIndex =>
      parseRows unicodeUpper nameIndex idIndex sizeIndex processorIndex untilIndex
        rows [] F64.zero
    | _, _, _, _, _ => some ([], F64.zero)

/-! ## Definitions used to state the properties -/

/-- The reference unit table of the specification: suffix and multiplier. -/
def unitTable : List (Str × F64) :=
  [(bytes "GIB", F64.lit 1 1), (bytes "GB", F64.lit 931323 1000000),
   (bytes "MIB", F64.lit 1 1024), (bytes "MB", F64.lit 931323 1024000000)]

/-- The record the specification describes for a data row: the trimmed text
between consecutive column offsets, and from the last offset to the end. -/
def rowRecord (nameIndex idIndex sizeIndex processorIndex untilIndex : Nat) (line : Str) :
    OllamaPsModel :=
  { Name := TrimSpace ((line.drop nameIndex).take (idIndex - nameIndex)),
    ID := TrimSpace ((line.drop idIndex).take (sizeIndex - idIndex)),
    Size := TrimSpace ((line.drop sizeIndex).take (processorIndex - sizeIndex)),
    Processor := TrimSpace ((line.drop processorIndex).take (untilIndex - processorIndex)),
    Until := TrimSpace (line.drop untilIndex) }

/-- The running total of the specification: the converted sizes of the
records, added in record order to `start`. -/
def sumSizes (unicodeUpper : Str → Str) (start : F64) (records : List OllamaPsModel) : F64 :=
  records.foldl (fun acc m => F64.add acc (parseSizeToGiB unicodeUpper m.Size)) start

/-- Model of `strings.Join(lines, "\n")`: the text whose lines are `lines`. -/
def joinLines : List Str → Str
  | [] => []
  | [l] => l
  | l :: r :: rs => l ++ 10 :: joinLines (r :: rs)

/-- What `parseOllamaPs` does once the text is split into the header line
`first` and the data rows `rows`. -/
def parseLines (unicodeUpper : Str → Str) (first : Str) (rows : List Str) :
    Option (List OllamaPsModel × F64) :=
  match Index (ToUpper unicodeUpper first) (bytes "NAME"),
        Index (ToUpper unicodeUpper first) (bytes "ID"),
        Index (ToUpper unicodeUpper first) (bytes "SIZE"),
        Index (ToUpper unicodeUpper first) (bytes "PROCESSOR"),
        Index (ToUpper unicodeUpper first) (bytes "UNTIL") with
  | some nameIndex, some idIndex, some sizeIndex, some processorIndex, some untilIndex =>
    parseRows unicodeUpper nameIndex idIndex sizeIndex processorIndex untilIndex
      rows [] F64.zero
  | _, _, _, _, _ => some ([], F64.zero)

/-- Scenario A of the specification, as written: a header with single
blanks between the column names, and one data row. -/
def scenarioA : Str :=
  bytes "NAME ID SIZE PROCESSOR UNTIL\nllama3:8b  a1b2c3  4.7GB  100% GPU  5 minutes from now"

/-- Scenario A with the header padded so that each column name starts where
the field of the data row starts (offsets 0, 11, 19, 26 and 36). -/
def scenarioAligned : Str :=
  bytes "NAME       ID      SIZE   PROCESSOR UNTIL\nllama3:8b  a1b2c3  4.7GB  100% GPU  5 minutes from now"

/-- The record of the data row of scenario A read under the aligned header. -/
def scenarioRecord : OllamaPsModel :=
  { Name := bytes "llama3:8b", ID := bytes "a1b2c3", Size := bytes "4.7GB",
    Processor := bytes "100% GPU", Until := bytes "5 minutes from now" }

/-- A sample table: an aligned header, two full rows and a short row
between them. -/
def sampleText : Str :=
  bytes "NAME       ID      SIZE   PROCESSOR UNTIL\r\nllama3:8b  a1b2c3  4.7GB  100% GPU  5 minutes from now\r\nshort\r\nphi3:mini  d4e5f6  512MB  100% CPU  Forever\r\n"

/-- The header line of `sampleText`. -/
def sampleHeader : Str := bytes "NAME       ID      SIZE   PROCESSOR UNTIL"

/-- The data rows of `sampleText`. -/
def sampleRows : List Str :=
  [bytes "llama3:8b  a1b2c3  4.7GB  100% GPU  5 minutes from now", bytes "short",
   bytes "phi3:mini  d4e5f6  512MB  100% CPU  Forever"]

/-- The records of the two full rows of `sampleText`. -/
def sampleRecords : List OllamaPsModel :=
  [scenarioRecord,
   { Name := bytes "phi3:mini", ID := bytes "d4e5f6", Size := bytes "512MB",
     Processor := bytes "100% CPU", Until := bytes "Forever" }]

/-- The reordered header of the specification. -/
def reorderedHeader : Str := bytes "ID NAME SIZE PROCESSOR UNTIL"

/-- A table under the reordered header whose data row has its fields under
the like-named columns and reaches past the UNTIL offset. -/
def reorderedText : Str :=
  bytes "ID NAME SIZE PROCESSOR UNTIL\na1 llam 4GB  100% GPU  now"

/-- A table whose full row ends in blanks and is followed by a short row. -/
def trailingText : Str :=
  bytes "NAME ID SIZE PROCESSOR UNTIL\naaaa bb 4GB  cpu       \nx"

/-- The lines of `trailingText`: header, full row, short row. -/
def trailingLines : List Str :=
  [bytes "NAME ID SIZE PROCESSOR UNTIL", bytes "aaaa bb 4GB  cpu       ", bytes "x"]

/-- The value `parseSizeToGiB` returns once the unit is known: the parsed
number times the multiplier, `0.0` when the number does not parse. -/
def scaleBy (num : Str) (multiplier : F64) : F64 :=
  match ParseFloat (TrimSpace num) with
  | none => F64.zero
  | some val => F64.mul val multiplier

/-- Whether the first byte of a table entry is a white-space byte or not
ASCII. -/
def headOutside (e : Str) : Bool :=
  match e with
  | h :: _ => decide (h < 33 ∨ 128 ≤ h)
  | [] => false

/-- The upper-cased header line `parseOllamaPs` searches for column names. -/
def headerLine (unicodeUpper : Str → Str) (output : Str) : Str :=
  ToUpper unicodeUpper ((splitLines output).headD [])

/-! ## Library facts -/

theorem Index_eq_none_iff (sub : Str) (s : Str) : Index s sub = none ↔ ¬ sub <:+: s := by
  induction s with
  | nil =>
    by_cases h : sub = []
    · simp [Index, h]
    · simp [Index, h, List.infix_nil]
  | cons c rest ih =>
    rw [Index, List.infix_cons_iff]
    by_cases h : sub.isPrefixOf (c :: rest) = true
    · have h2 : sub <+: c :: rest := List.isPrefixOf_iff_prefix.mp h
      simp [h, h2]
    · have h2 : ¬ sub <+: c :: rest := fun hp => h (List.isPrefixOf_iff_prefix.mpr hp)
      simp [h, h2, ih]

theorem mem_dropSpaces (tbl : List Str) (c : Nat) (s : Str) :
    ∀ k, c ∈ dropSpaces tbl k s → c ∈ s := by
  induction s with
  | nil => intro k h; cases k <;> simp [dropSpaces] at h
  | cons a rest ih =>
    intro k h
    cases k with
    | succ k =>
      rw [dropSpaces] at h
      exact List.mem_cons_of_mem _ (ih k h)
    | zero =>
      rw [dropSpaces] at h
      split at h
      · exact h
      · exact List.mem_cons_of_mem _ (ih _ h)

theorem mem_TrimSpace (c : Nat) (s : Str) (h : c ∈ TrimSpace s) : c ∈ s := by
  unfold TrimSpace at h
  rw [List.mem_reverse] at h
  have h1 := mem_dropSpaces _ c _ 0 h
  rw [List.mem_reverse] at h1
  exact mem_dropSpaces _ c _ 0 h1

theorem mem_replaceGo (old new : Str) (c : Nat) (s : Str) :
    ∀ k, c ∈ replaceGo old new k s → c ∈ s ∨ c ∈ new := by
  induction s with
  | nil => intro k h; cases k <;> simp [replaceGo] at h
  | cons a rest ih =>
    intro k h
    cases k with
    | succ k =>
      rw [replaceGo] at h
      rcases ih k h with h1 | h1
      · exact Or.inl (List.mem_cons_of_mem _ h1)
      · exact Or.inr h1
    | zero =>
      rw [replaceGo] at h
      split at h
      · rcases List.mem_append.mp h with h1 | h1
        · exact Or.inr h1
        · rcases ih _ h1 with h2 | h2
          · exact Or.inl (List.mem_cons_of_mem _ h2)
          · exact Or.inr h2
      · rcases List.mem_cons.mp h with h1 | h1
        · exact Or.inl (by simp [h1])
        · rcases ih _ h1 with h2 | h2
          · exact Or.inl (List.mem_cons_of_mem _ h2)
          · exact Or.inr h2

theorem mem_splitGo (sep : Str) (c : Nat) (s : Str) :
    ∀ k l, l ∈ splitGo sep k s → c ∈ l → c ∈ s := by
  induction s with
  | nil =>
    intro k l hl hc
    cases k <;> simp [splitGo] at hl <;> simp [hl] at hc
  | cons a rest ih =>
    intro k l hl hc
    cases k with
    | succ k =>
      rw [splitGo] at hl
      exact List.mem_cons_of_mem _ (ih k l hl hc)
    | zero =>
      rw [splitGo] at hl
      split at hl
      · rcases List.mem_cons.mp hl with h1 | h1
        · simp [h1] at hc
        · exact List.mem_cons_of_mem _ (ih _ l h1 hc)
      · split at hl
        · rename_i l0 ls heq
          rcases List.mem_cons.mp hl with h1 | h1
          · rw [h1] at hc
            rcases List.mem_cons.mp hc with h2 | h2
            · simp [h2]
            · exact List.mem_cons_of_mem _ (ih 0 l0 (by simp [heq]) h2)
          · exact List.mem_cons_of_mem _ (ih 0 l (by simp [heq, h1]) hc)
        · simp at hl
          simp [hl] at hc
          simp [hc]

theorem isASCII_of_mem (s t : Str) (h : ∀ c ∈ t, c ∈ s) (hs : isASCII s = true) :
    isASCII t = true := by
  simp only [isASCII, List.all_eq_true, decide_eq_true_eq] at *
  exact fun c hc => hs c (h c hc)

theorem ToUpper_ascii (up : Str → Str) (s : Str) (h : isASCII s = true) :
    ToUpper up s = s.map asciiUpper := by
  simp [ToUpper, h]

theorem parseSizeToGiB_ascii (up up2 : Str → Str) (s : Str) (h : isASCII s = true) :
    parseSizeToGiB up s = parseSizeToGiB up2 s := by
  have ht : isASCII (TrimSpace s) = true := isASCII_of_mem s _ (fun c hc => mem_TrimSpace c s hc) h
  unfold parseSizeToGiB
  rw [ToUpper_ascii up _ ht, ToUpper_ascii up2 _ ht]

theorem parseRow_Size_mem (n i s p u : Nat) (line : Str) (m : OllamaPsModel)
    (h : parseRow n i s p u line = some m) : ∀ c ∈ m.Size, c ∈ line := by
  unfold parseRow slice sliceFrom at h
  simp only [Option.bind_eq_bind, Option.pure_def] at h
  split_ifs at h <;> simp at h
  intro c hc
  rw [← h] at hc
  exact List.mem_of_mem_drop (List.mem_of_mem_take (mem_TrimSpace _ _ hc))

theorem parseRows_ascii (up up2 : Str → Str) (n i s p u : Nat) (rows : List Str)
    (h : ∀ l ∈ rows, isASCII l = true) :
    ∀ (models : List OllamaPsModel) (tot : F64),
      parseRows up n i s p u rows models tot = parseRows up2 n i s p u rows models tot := by
  induction rows with
  | nil => intro models tot; simp [parseRows]
  | cons line rest ih =>
    intro models tot
    have ih2 := ih (fun l hl => h l (List.mem_cons_of_mem _ hl))
    rw [parseRows, parseRows]
    split
    · exact ih2 _ _
    · cases hrow : parseRow n i s p u line with
      | none => rfl
      | some m =>
        have hm : isASCII m.Size = true :=
          isASCII_of_mem line _ (parseRow_Size_mem n i s p u line m hrow)
            (h line (List.mem_cons_self _ _))
        simp only [parseSizeToGiB_ascii up up2 m.Size hm]
        exact ih2 _ _

theorem bytes_lf : bytes "\n" = [10] := by decide

theorem splitLines_ascii (output : Str) (h : isASCII output = true) :
    ∀ l ∈ splitLines output, isASCII l = true := by
  intro l hl
  unfold splitLines Split at hl
  simp only [isASCII, List.all_eq_true, decide_eq_true_eq] at h ⊢
  intro c hc
  have h1 := mem_TrimSpace c _ (mem_splitGo _ c _ 0 l hl hc)
  rcases mem_replaceGo _ _ c _ 0 h1 with h2 | h2
  · exact h c h2
  · rw [bytes_lf] at h2
    simp at h2
    omega

theorem parseOllamaPs_ascii (up up2 : Str → Str) (output : Str) (h : isASCII output = true) :
    parseOllamaPs up output = parseOllamaPs up2 output := by
  have hl := splitLines_ascii output h
  unfold parseOllamaPs
  cases hsplit : splitLines output with
  | nil => rfl
  | cons first rows =>
    rw [hsplit] at hl
    have hf : isASCII first = true := hl first (List.mem_cons_self _ _)
    have hr : ∀ l ∈ rows, isASCII l = true := fun l hm => hl l (List.mem_cons_of_mem _ hm)
    cases rows with
    | nil => rfl
    | cons r rs =>
      simp only [ToUpper_ascii up first hf, ToUpper_ascii up2 first hf]
      split
      · exact parseRows_ascii up up2 _ _ _ _ _ _ hr _ _
      · rfl

/-! ## Text that `ParseFloat` accepts holds no white space -/

theorem spaceRunes_heads : spaceRunes.all headOutside = true := by decide

theorem spaceRunes_lasts : (spaceRunes.map List.reverse).all headOutside = true := by decide

theorem spaceWidth_plain (tbl : List Str) (htbl : tbl.all headOutside = true) (c : Nat)
    (rest : Str) (hc : 33 ≤ c ∧ c < 128) : spaceWidth tbl (c :: rest) = 0 := by
  have hfind : tbl.find? (fun e => e.isPrefixOf (c :: rest)) = none := by
    rw [List.find?_eq_none]
    intro e he
    have h1 := List.all_eq_true.mp htbl e he
    cases e with
    | nil => simp [headOutside] at h1
    | cons h t =>
      simp only [headOutside, decide_eq_true_eq] at h1
      have hne : h ≠ c := by omega
      simp [List.isPrefixOf, hne]
  simp [spaceWidth, hfind]

theorem dropSpaces_plain (tbl : List Str) (htbl : tbl.all headOutside = true) (s : Str)
    (h : ∀ c ∈ s, 33 ≤ c ∧ c < 128) : dropSpaces tbl 0 s = s := by
  cases s with
  | nil => rfl
  | cons c rest =>
    rw [dropSpaces, spaceWidth_plain tbl htbl c rest (h c (List.mem_cons_self _ _))]

theorem TrimSpace_plain (s : Str) (h : ∀ c ∈ s, 33 ≤ c ∧ c < 128) : TrimSpace s = s := by
  unfold TrimSpace
  rw [dropSpaces_plain _ spaceRunes_heads s h,
    dropSpaces_plain _ spaceRunes_lasts s.reverse (fun c hc => h c (List.mem_reverse.mp hc)),
    List.reverse_reverse]

theorem commonPrefixLen_le (t : Str) : ∀ pre, commonPrefixLenIgnoreCase t pre ≤ t.length := by
  induction t with
  | nil => intro pre; simp [commonPrefixLenIgnoreCase]
  | cons c t ih =>
    intro pre
    cases pre with
    | nil => simp [commonPrefixLenIgnoreCase]
    | cons d pre =>
      rw [commonPrefixLenIgnoreCase]
      have := ih pre
      by_cases hm : (if 65 ≤ c ∧ c ≤ 90 then c + 32 else c) = d
      · rw [if_pos hm, List.length_cons]
        omega
      · rw [if_neg hm]
        omega

theorem commonPrefixLen_plain (t : Str) :
    ∀ pre, (∀ d ∈ pre, 97 ≤ d ∧ d ≤ 122) → commonPrefixLenIgnoreCase t pre = t.length →
      ∀ c ∈ t, 33 ≤ c ∧ c < 128 := by
  induction t with
  | nil => intro pre _ _ c hc; cases hc
  | cons a t ih =>
    intro pre hpre h c hc
    cases pre with
    | nil => simp [commonPrefixLenIgnoreCase] at h
    | cons d pre =>
      rw [commonPrefixLenIgnoreCase] at h
      have hd := hpre d (List.mem_cons_self _ _)
      by_cases hm : (if 65 ≤ a ∧ a ≤ 90 then a + 32 else a) = d
      · rw [if_pos hm] at h
        simp only [List.length_cons, Nat.add_right_cancel_iff] at h
        rcases List.mem_cons.mp hc with h1 | h1
        · subst h1
          split at hm <;> omega
        · exact ih pre (fun x hx => hpre x (List.mem_cons_of_mem _ hx)) h c h1
      · rw [if_neg hm] at h
        simp at h

theorem specialInf_plain (neg : Bool) (nsign : Nat) (t : Str) (v : F64) (n : Nat)
    (h : specialInf neg nsign t = some (v, n)) (hn : n = nsign + t.length) :
    ∀ c ∈ t, 33 ≤ c ∧ c < 128 := by
  unfold specialInf at h
  have hle := commonPrefixLen_le t (bytes "infinity")
  have hpre : ∀ d ∈ bytes "infinity", 97 ≤ d ∧ d ≤ 122 := by decide
  simp only at h
  split_ifs at h with h1 h2
  · simp only [Option.some.injEq, Prod.mk.injEq] at h
    omega
  · simp only [Option.some.injEq, Prod.mk.injEq] at h
    exact commonPrefixLen_plain t _ hpre (by omega)

theorem special_plain (s : Str) (v : F64) (n : Nat) (h : special s = some (v, n))
    (hn : n = s.length) : ∀ c ∈ s, 33 ≤ c ∧ c < 128 := by
  unfold special at h
  cases s with
  | nil => simp at h
  | cons a t =>
    simp only at h
    have hlen : (a :: t).length = 1 + t.length := by simp [Nat.add_comm]
    split_ifs at h with h1 h2 h3 h4 h5
    · have ht := specialInf_plain _ _ t v n h (by omega)
      intro c hc
      rcases List.mem_cons.mp hc with hc | hc
      · omega
      · exact ht c hc
    · have ht := specialInf_plain _ _ t v n h (by omega)
      intro c hc
      rcases List.mem_cons.mp hc with hc | hc
      · omega
      · exact ht c hc
    · exact specialInf_plain _ _ (a :: t) v n h (by omega)
    · simp only [Option.some.injEq, Prod.mk.injEq] at h
      have hle := commonPrefixLen_le (a :: t) (bytes "nan")
      have hpre : ∀ d ∈ bytes "nan", 97 ≤ d ∧ d ≤ 122 := by decide
      exact commonPrefixLen_plain (a :: t) _ hpre (by omega)

theorem readDigits_consumed (hex : Bool) (s : Str) :
    ∀ d : Digits, ∃ pre, s = pre ++ (readDigits hex d s).2 ∧ ∀ c ∈ pre, 33 ≤ c ∧ c < 128 := by
  induction s with
  | nil => intro d; exact ⟨[], by simp [readDigits], by simp⟩
  | cons a rest ih =>
    intro d
    have step : ∀ d2 : Digits, 33 ≤ a ∧ a < 128 →
        ∃ pre, a :: rest = pre ++ (readDigits hex d2 rest).2 ∧ ∀ c ∈ pre, 33 ≤ c ∧ c < 128 := by
      intro d2 ha
      obtain ⟨pre, h1, h2⟩ := ih d2
      refine ⟨a :: pre, by rw [List.cons_append, ← h1], ?_⟩
      intro c hc
      rcases List.mem_cons.mp hc with h3 | h3
      · rw [h3]; exact ha
      · exact h2 c h3
    rw [readDigits]
    by_cases h1 : a = 95
    · rw [if_pos h1]; exact step _ (by omega)
    rw [if_neg h1]
    by_cases h2 : a = 46
    · rw [if_pos h2]
      by_cases h3 : d.sawdot = true
      · rw [if_pos h3]; exact ⟨[], by simp, by simp⟩
      · rw [if_neg h3]; exact step _ (by omega)
    rw [if_neg h2]
    by_cases h4 : isDigit a = true
    · rw [if_pos h4]
      have ha : 33 ≤ a ∧ a < 128 := by
        simp only [isDigit, decide_eq_true_eq] at h4; omega
      by_cases h5 : a = 48 ∧ d.nd = 0
      · rw [if_pos h5]; exact step _ ha
      · rw [if_neg h5]; exact step _ ha
    rw [if_neg h4]
    by_cases h6 : (hex && isHexLetter a) = true
    · rw [if_pos h6]
      have ha : 33 ≤ a ∧ a < 128 := by
        simp only [Bool.and_eq_true, isHexLetter, lower, decide_eq_true_eq] at h6
        have := h6.2
        split at this <;> omega
      exact step _ ha
    · rw [if_neg h6]; exact ⟨[], by simp, by simp⟩

theorem readExpDigits_consumed (s : Str) :
    ∀ (e : Nat) (u : Bool),
      ∃ pre, s = pre ++ (readExpDigits e u s).2.2 ∧ ∀ c ∈ pre, 33 ≤ c ∧ c < 128 := by
  induction s with
  | nil => intro e u; exact ⟨[], by simp [readExpDigits], by simp⟩
  | cons a rest ih =>
    intro e u
    have step : ∀ (e2 : Nat) (u2 : Bool), 33 ≤ a ∧ a < 128 →
        ∃ pre, a :: rest = pre ++ (readExpDigits e2 u2 rest).2.2 ∧
          ∀ c ∈ pre, 33 ≤ c ∧ c < 128 := by
      intro e2 u2 ha
      obtain ⟨pre, h1, h2⟩ := ih e2 u2
      refine ⟨a :: pre, by rw [List.cons_append, ← h1], ?_⟩
      intro c hc
      rcases List.mem_cons.mp hc with h3 | h3
      · rw [h3]; exact ha
      · exact h2 c h3
    rw [readExpDigits]
    by_cases h1 : a = 95
    · rw [if_pos h1]; exact step _ _ (by omega)
    rw [if_neg h1]
    by_cases h2 : isDigit a = true
    · rw [if_pos h2]
      simp only [isDigit, decide_eq_true_eq] at h2
      exact step _ _ (by omega)
    · rw [if_neg h2]; exact ⟨[], by simp, by simp⟩

theorem readExp_plain (t : Str) (e : Int) (u : Bool) (h : readExp t = some (e, u, [])) :
    ∀ c ∈ t, 33 ≤ c ∧ c < 128 := by
  unfold readExp at h
  cases t with
  | nil => simp at h
  | cons a t1 =>
    simp only at h
    generalize hs1 : (if a = 43 ∨ a = 45 then t1 else a :: t1) = s1 at h
    cases s1 with
    | nil => simp at h
    | cons d t2 =>
      simp only at h
      by_cases hd : isDigit d = true
      · rw [if_pos hd] at h
        simp only [Option.some.injEq, Prod.mk.injEq] at h
        obtain ⟨pre, hp, hg⟩ := readExpDigits_consumed (d :: t2) 0 false
        rw [h.2.2, List.append_nil] at hp
        rw [hp] at hs1
        by_cases hs : a = 43 ∨ a = 45
        · rw [if_pos hs] at hs1
          intro c hc
          rcases List.mem_cons.mp hc with h3 | h3
          · omega
          · exact hg c (hs1 ▸ h3)
        · rw [if_neg hs] at hs1
          intro c hc
          exact hg c (hs1 ▸ hc)
      · rw [if_neg hd] at h
        simp at h

theorem finishFloat_rest (s : Str) (neg hex : Bool) (d : Digits) (e : Int) (u : Bool)
    (rest : Str) (p : Parsed) (r : Str) (h : finishFloat s neg hex d e u rest = some (p, r)) :
    r = rest := by
  unfold finishFloat at h
  simp only at h
  by_cases hc : ((d.underscores || u) &&
      !underscoreOK (List.take (List.length s - List.length rest) s)) = true
  · rw [if_pos hc] at h
    simp at h
  · rw [if_neg hc] at h
    simp only [Option.some.injEq, Prod.mk.injEq] at h
    exact h.2.symm

theorem readNumber_plain (s : Str) (neg hex : Bool) (s2 : Str) (p : Parsed)
    (h : readNumber s neg hex s2 = some (p, [])) : ∀ c ∈ s2, 33 ≤ c ∧ c < 128 := by
  unfold readNumber at h
  obtain ⟨pre, hp, hg⟩ := readDigits_consumed hex s2 ⟨false, false, false, 0, 0, 0⟩
  simp only at h
  generalize readDigits hex ⟨false, false, false, 0, 0, 0⟩ s2 = r at h hp
  obtain ⟨d, r2⟩ := r
  simp only at h hp
  by_cases h0 : (!d.sawdigits) = true
  · rw [if_pos h0] at h
    simp at h
  rw [if_neg h0] at h
  cases r2 with
  | nil =>
    rw [List.append_nil] at hp
    intro x hx
    exact hg x (hp ▸ hx)
  | cons c t =>
    simp only at h
    by_cases h1 : lower c = (if hex = true then 112 else 101)
    · rw [if_pos h1] at h
      cases hexp : readExp t with
      | none => rw [hexp] at h; simp at h
      | some val =>
        obtain ⟨e, u, rest⟩ := val
        rw [hexp] at h
        simp only at h
        have hr := finishFloat_rest _ _ _ _ _ _ _ _ _ h
        rw [← hr] at hexp
        have ht := readExp_plain t e u hexp
        have hc : 33 ≤ c ∧ c < 128 := by
          simp only [lower] at h1
          split at h1 <;> split at h1 <;> omega
        intro x hx
        rw [hp] at hx
        rcases List.mem_append.mp hx with h3 | h3
        · exact hg x h3
        · rcases List.mem_cons.mp h3 with h4 | h4
          · rw [h4]; exact hc
          · exact ht x h4
    · rw [if_neg h1] at h
      by_cases h2 : hex = true
      · rw [if_pos h2] at h
        simp at h
      · rw [if_neg h2] at h
        have hr := finishFloat_rest _ _ _ _ _ _ _ _ _ h
        simp at hr

theorem readFloat_plain (s : Str) (p : Parsed) (h : readFloat s = some (p, [])) :
    ∀ c ∈ s, 33 ≤ c ∧ c < 128 := by
  unfold readFloat at h
  simp only at h
  have h2 := readNumber_plain _ _ _ _ _ h
  cases s with
  | nil => intro c hc; cases hc
  | cons a t =>
    simp only at h2
    by_cases hs : a = 43 ∨ a = 45
    · simp only [if_pos hs] at h2
      have ht : ∀ c ∈ t, 33 ≤ c ∧ c < 128 := by
        match t, h2 with
        | [], _ => intro c hc; cases hc
        | [x], h2 => simpa using h2
        | [x, y], h2 => simpa using h2
        | x :: y :: z :: w, h2 =>
          by_cases hx : x = 48 ∧ lower y = 120
          · simp only [hx, and_self, decide_True, if_true, List.drop_succ_cons, List.drop_zero] at h2
            intro c hc
            rcases List.mem_cons.mp hc with h3 | h3
            · omega
            rcases List.mem_cons.mp h3 with h4 | h4
            · have := hx.2
              simp only [lower] at this
              split at this <;> omega
            · exact h2 c h4
          · simpa [hx] using h2
      intro c hc
      rcases List.mem_cons.mp hc with h3 | h3
      · omega
      · exact ht c h3
    · simp only [if_neg hs] at h2
      match t, h2 with
      | [], h2 => simpa using h2
      | [y], h2 => simpa using h2
      | y :: z :: w, h2 =>
        by_cases hx : a = 48 ∧ lower y = 120
        · simp only [hx, and_self, decide_True, if_true, List.drop_succ_cons, List.drop_zero] at h2
          intro c hc
          rcases List.mem_cons.mp hc with h3 | h3
          · omega
          rcases List.mem_cons.mp h3 with h4 | h4
          · have := hx.2
            simp only [lower] at this
            split at this <;> omega
          · exact h2 c h4
        · simpa [hx] using h2

theorem ParseFloat_plain (s : Str) (v : F64) (h : ParseFloat s = some v) :
    ∀ c ∈ s, 33 ≤ c ∧ c < 128 := by
  unfold ParseFloat at h
  split at h
  · rename_i v2 n hsp
    split_ifs at h with hn
    exact special_plain s v2 n hsp hn
  · split at h
    · simp at h
    · rename_i p rest hrf
      split_ifs at h with hr
      simp only [ne_eq, not_not] at hr
      rw [hr] at hrf
      exact readFloat_plain s p hrf

theorem ParseFloat_TrimSpace (s : Str) (v : F64) (h : ParseFloat s = some v) :
    TrimSpace s = s :=
  TrimSpace_plain s (ParseFloat_plain s v h)

/-! ## The size converter -/

theorem lower_eq_lor : ∀ c < 256, lower c = c ||| 0x20 := by decide!

theorem HasSuffix_iff (s suf : Str) : HasSuffix s suf = true ↔ suf <:+ s := by
  unfold HasSuffix
  constructor
  · intro h
    simp only [Bool.and_eq_true, decide_eq_true_eq, beq_iff_eq] at h
    rw [← h.2]
    exact List.drop_suffix _ _
  · rintro ⟨t, rfl⟩
    simp

theorem HasSuffix_append (num suf : Str) : HasSuffix (num ++ suf) suf = true :=
  (HasSuffix_iff _ _).mpr ⟨num, rfl⟩

theorem TrimSuffix_append (num suf : Str) : TrimSuffix (num ++ suf) suf = num := by
  simp [TrimSuffix, HasSuffix_append]

theorem HasSuffix_eq_false (s suf : Str) (h : ¬ suf.reverse <+: s.reverse) :
    HasSuffix s suf = false := by
  rw [← Bool.not_eq_true, HasSuffix_iff]
  exact fun hs => h (List.reverse_prefix.mpr hs)

theorem bytes_GIB : bytes "GIB" = [71, 73, 66] := by decide

theorem bytes_GB : bytes "GB" = [71, 66] := by decide

theorem bytes_MIB : bytes "MIB" = [77, 73, 66] := by decide

theorem bytes_MB : bytes "MB" = [77, 66] := by decide

theorem parseSizeToGiB_GIB (up : Str → Str) (s num : Str)
    (ht : ToUpper up (TrimSpace s) = num ++ bytes "GIB") :
    parseSizeToGiB up s = scaleBy num (F64.lit 1 1) := by
  unfold parseSizeToGiB
  simp only [ht, HasSuffix_append, TrimSuffix_append, if_true]
  rfl

theorem parseSizeToGiB_GB (up : Str → Str) (s num : Str)
    (ht : ToUpper up (TrimSpace s) = num ++ bytes "GB") :
    parseSizeToGiB up s = scaleBy num (F64.lit 931323 1000000) := by
  have h1 : HasSuffix (num ++ bytes "GB") (bytes "GIB") = false :=
    HasSuffix_eq_false _ _ (by simp [bytes_GB, bytes_GIB])
  unfold parseSizeToGiB
  simp only [ht, h1, HasSuffix_append, TrimSuffix_append, if_true]
  rfl

theorem parseSizeToGiB_MIB (up : Str → Str) (s num : Str)
    (ht : ToUpper up (TrimSpace s) = num ++ bytes "MIB") :
    parseSizeToGiB up s = scaleBy num (F64.lit 1 1024) := by
  have h1 : HasSuffix (num ++ bytes "MIB") (bytes "GIB") = false :=
    HasSuffix_eq_false _ _ (by simp [bytes_MIB, bytes_GIB])
  have h2 : HasSuffix (num ++ bytes "MIB") (bytes "GB") = false :=
    HasSuffix_eq_false _ _ (by simp [bytes_MIB, bytes_GB])
  unfold parseSizeToGiB
  simp only [ht, h1, h2, HasSuffix_append, TrimSuffix_append, if_true]
  rfl

theorem parseSizeToGiB_MB (up : Str → Str) (s num : Str)
    (ht : ToUpper up (TrimSpace s) = num ++ bytes "MB") :
    parseSizeToGiB up s = scaleBy num (F64.lit 931323 1024000000) := by
  have h1 : HasSuffix (num ++ bytes "MB") (bytes "GIB") = false :=
    HasSuffix_eq_false _ _ (by simp [bytes_MB, bytes_GIB])
  have h2 : HasSuffix (num ++ bytes "MB") (bytes "GB") = false :=
    HasSuffix_eq_false _ _ (by simp [bytes_MB, bytes_GB])
  have h3 : HasSuffix (num ++ bytes "MB") (bytes "MIB") = false :=
    HasSuffix_eq_false _ _ (by simp [bytes_MB, bytes_MIB])
  unfold parseSizeToGiB
  simp only [ht, h1, h2, h3, HasSuffix_append, TrimSuffix_append, if_true]
  rfl

theorem parseSizeToGiB_unit (up : Str → Str) (s num suf : Str) (mult : F64)
    (hm : (suf, mult) ∈ unitTable) (ht : ToUpper up (TrimSpace s) = num ++ suf) :
    parseSizeToGiB up s = scaleBy num mult := by
  unfold unitTable at hm
  rcases List.mem_cons.mp hm with h | hm
  · obtain ⟨h1, h2⟩ := Prod.mk.inj h
    subst h1 h2
    exact parseSizeToGiB_GIB up s num ht
  rcases List.mem_cons.mp hm with h | hm
  · obtain ⟨h1, h2⟩ := Prod.mk.inj h
    subst h1 h2
    exact parseSizeToGiB_GB up s num ht
  rcases List.mem_cons.mp hm with h | hm
  · obtain ⟨h1, h2⟩ := Prod.mk.inj h
    subst h1 h2
    exact parseSizeToGiB_MIB up s num ht
  rcases List.mem_cons.mp hm with h | hm
  · obtain ⟨h1, h2⟩ := Prod.mk.inj h
    subst h1 h2
    exact parseSizeToGiB_MB up s num ht
  · cases hm

theorem parseSizeToGiB_no_unit (up : Str → Str) (s : Str)
    (h : ∀ p ∈ unitTable, ¬ p.1 <:+ ToUpper up (TrimSpace s)) :
    parseSizeToGiB up s = F64.zero := by
  have h1 : HasSuffix (ToUpper up (TrimSpace s)) (bytes "GIB") = false := by
    rw [← Bool.not_eq_true, HasSuffix_iff]
    exact h (bytes "GIB", F64.lit 1 1) (List.mem_cons_self _ _)
  have h2 : HasSuffix (ToUpper up (TrimSpace s)) (bytes "GB") = false := by
    rw [← Bool.not_eq_true, HasSuffix_iff]
    exact h (bytes "GB", F64.lit 931323 1000000) (List.mem_cons_of_mem _ (List.mem_cons_self _ _))
  have h3 : HasSuffix (ToUpper up (TrimSpace s)) (bytes "MIB") = false := by
    rw [← Bool.not_eq_true, HasSuffix_iff]
    exact h (bytes "MIB", F64.lit 1 1024)
      (List.mem_cons_of_mem _ (List.mem_cons_of_mem _ (List.mem_cons_self _ _)))
  have h4 : HasSuffix (ToUpper up (TrimSpace s)) (bytes "MB") = false := by
    rw [← Bool.not_eq_true, HasSuffix_iff]
    exact h (bytes "MB", F64.lit 931323 1024000000)
      (List.mem_cons_of_mem _ (List.mem_cons_of_mem _ (List.mem_cons_of_mem _
        (List.mem_cons_self _ _))))
  unfold parseSizeToGiB
  simp only [h1, h2, h3, h4]
  rfl

/-! ## The row loop -/

theorem parseRows_acc (up : Str → Str) (n i s p u : Nat) (rows : List Str) :
    ∀ (models : List OllamaPsModel) (tot : F64) (recs : List OllamaPsModel) (total : F64),
      parseRows up n i s p u rows models tot = some (recs, total) →
      ∃ new, recs = models ++ new ∧ total = sumSizes up tot new := by
  induction rows with
  | nil =>
    intro models tot recs total h
    simp only [parseRows, Option.some.injEq, Prod.mk.injEq] at h
    exact ⟨[], by simp [h.1], by simp [sumSizes, h.2]⟩
  | cons line rest ih =>
    intro models tot recs total h
    rw [parseRows] at h
    split at h
    · exact ih models tot recs total h
    · cases hrow : parseRow n i s p u line with
      | none => rw [hrow] at h; simp at h
      | some m =>
        rw [hrow] at h
        obtain ⟨new, h1, h2⟩ := ih _ _ recs total h
        refine ⟨m :: new, by simp [h1], ?_⟩
        rw [h2]
        simp [sumSizes]

theorem parseRow_inorder (n i s p u : Nat) (line : Str)
    (hni : n ≤ i) (his : i ≤ s) (hsp : s ≤ p) (hpu : p ≤ u) (hl : u ≤ line.length) :
    parseRow n i s p u line = some (rowRecord n i s p u line) := by
  have h1 : n ≤ i ∧ i ≤ line.length := ⟨hni, by omega⟩
  have h2 : i ≤ s ∧ s ≤ line.length := ⟨his, by omega⟩
  have h3 : s ≤ p ∧ p ≤ line.length := ⟨hsp, by omega⟩
  have h4 : p ≤ u ∧ u ≤ line.length := ⟨hpu, hl⟩
  simp [parseRow, slice, sliceFrom, h1, h2, h3, h4, hl, rowRecord]

theorem parseRows_inorder (up : Str → Str) (n i s p u : Nat)
    (hni : n ≤ i) (his : i ≤ s) (hsp : s ≤ p) (hpu : p ≤ u) (rows : List Str) :
    ∀ (models : List OllamaPsModel) (tot : F64),
      parseRows up n i s p u rows models tot =
        some (models ++ (rows.filter (fun l => decide (u ≤ l.length))).map (rowRecord n i s p u),
              sumSizes up tot
                ((rows.filter (fun l => decide (u ≤ l.length))).map (rowRecord n i s p u))) := by
  induction rows with
  | nil => intro models tot; simp [parseRows, sumSizes]
  | cons line rest ih =>
    intro models tot
    rw [parseRows]
    by_cases hl : line.length < u
    · have : ¬ u ≤ line.length := by omega
      simp [hl, this, ih]
    · have hle : u ≤ line.length := by omega
      simp [hl, hle, parseRow_inorder n i s p u line hni his hsp hpu hle, ih, sumSizes]

theorem parseOllamaPs_resolved (up : Str → Str) (output first : Str) (rows : List Str)
    (n i s p u : Nat)
    (hsplit : splitLines output = first :: rows)
    (hn : Index (ToUpper up first) (bytes "NAME") = some n)
    (hi : Index (ToUpper up first) (bytes "ID") = some i)
    (hs : Index (ToUpper up first) (bytes "SIZE") = some s)
    (hp : Index (ToUpper up first) (bytes "PROCESSOR") = some p)
    (hu : Index (ToUpper up first) (bytes "UNTIL") = some u) :
    parseOllamaPs up output = parseRows up n i s p u rows [] F64.zero := by
  unfold parseOllamaPs
  rw [hsplit]
  cases rows with
  | nil => simp [parseRows]
  | cons r rs => simp [hn, hi, hs, hp, hu]

theorem parseOllamaPs_eq_parseLines (up : Str → Str) (output first : Str) (rows : List Str)
    (hsplit : splitLines output = first :: rows) :
    parseOllamaPs up output = parseLines up first rows := by
  unfold parseOllamaPs parseLines
  rw [hsplit]
  cases rows with
  | nil =>
    simp only
    split <;> rfl
  | cons r rs => rfl

theorem parseRows_filter (up : Str → Str) (n i s p u : Nat) (rows : List Str) :
    ∀ (models : List OllamaPsModel) (tot : F64),
      parseRows up n i s p u (rows.filter (fun l => decide (u ≤ l.length))) models tot =
        parseRows up n i s p u rows models tot := by
  induction rows with
  | nil => intro models tot; rfl
  | cons line rest ih =>
    intro models tot
    by_cases hl : line.length < u
    · have hn : ¬ u ≤ line.length := by omega
      rw [List.filter_cons_of_neg (by simpa using hn), ih]
      conv => rhs; rw [parseRows, if_pos hl]
    · have hle : u ≤ line.length := by omega
      rw [List.filter_cons_of_pos (by simpa using hle)]
      simp only [parseRows, if_neg hl]
      cases parseRow n i s p u line with
      | none => rfl
      | some m => exact ih _ _

theorem parseLines_filter (up : Str → Str) (first : Str) (rows : List Str) (u : Nat)
    (hu : Index (ToUpper up first) (bytes "UNTIL") = some u) :
    parseLines up first (rows.filter (fun l => decide (u ≤ l.length))) =
      parseLines up first rows := by
  unfold parseLines
  rw [hu]
  split
  · rename_i hu2
    cases hu2
    exact parseRows_filter up _ _ _ _ _ rows [] F64.zero
  · rfl

/-! ## Splitting text into lines -/

theorem splitGo_ne_nil (sep : Str) (s : Str) : ∀ k, splitGo sep k s ≠ [] := by
  induction s with
  | nil => intro k; cases k <;> simp [splitGo]
  | cons c rest ih =>
    intro k
    cases k with
    | succ k => rw [splitGo]; exact ih k
    | zero =>
      rw [splitGo]
      split
      · simp
      · split <;> simp

theorem splitGo_line (l : Str) (hl : 10 ∉ l) :
    splitGo [10] 0 l = [l] ∧
      ∀ rest, splitGo [10] 0 (l ++ 10 :: rest) = l :: splitGo [10] 0 rest := by
  induction l with
  | nil =>
    refine ⟨by simp [splitGo], fun rest => ?_⟩
    rw [List.nil_append, splitGo]
    simp [List.isPrefixOf]
  | cons c t ih =>
    have hc : (10 : Nat) ≠ c := fun h => hl (by simp [h])
    have ht : 10 ∉ t := fun h => hl (List.mem_cons_of_mem _ h)
    obtain ⟨ih1, ih2⟩ := ih ht
    constructor
    · rw [splitGo]
      simp [List.isPrefixOf, hc, ih1]
    · intro rest
      rw [List.cons_append, splitGo]
      simp [List.isPrefixOf, hc, ih2]

theorem Split_joinLines (ls : List Str) (hne : ls ≠ []) (h : ∀ l ∈ ls, 10 ∉ l) :
    Split (joinLines ls) (bytes "\n") = ls := by
  rw [bytes_lf]
  unfold Split
  induction ls with
  | nil => exact absurd rfl hne
  | cons l rest ih =>
    cases rest with
    | nil => exact (splitGo_line l (h l (List.mem_cons_self _ _))).1
    | cons r rs =>
      rw [joinLines, (splitGo_line l (h l (List.mem_cons_self _ _))).2,
        ih (by simp) (fun x hx => h x (List.mem_cons_of_mem _ hx))]

theorem splitGo_no_lf (s : Str) : ∀ l ∈ splitGo [10] 0 s, 10 ∉ l := by
  induction s with
  | nil => intro l hl; simp [splitGo] at hl; simp [hl]
  | cons c rest ih =>
    intro l hl
    rw [splitGo] at hl
    split at hl
    · rcases List.mem_cons.mp hl with h1 | h1
      · simp [h1]
      · exact ih l h1
    · rename_i hc
      have hc2 : (10 : Nat) ≠ c := by
        intro h
        apply hc
        simp [List.isPrefixOf, h]
      split at hl
      · rename_i l0 ls0 heq
        rcases List.mem_cons.mp hl with h1 | h1
        · rw [h1]
          intro hm
          rcases List.mem_cons.mp hm with h2 | h2
          · exact hc2 h2
          · exact ih l0 (by simp [heq]) h2
        · exact ih l (by simp [heq, h1])
      · rename_i heq
        exact absurd heq (splitGo_ne_nil _ _ _)

theorem splitLines_no_lf (output : Str) : ∀ l ∈ splitLines output, 10 ∉ l := by
  unfold splitLines Split
  rw [bytes_lf]
  exact splitGo_no_lf _

theorem splitLines_joinLines (ls : List Str) (hne : ls ≠ []) (h : ∀ l ∈ ls, 10 ∉ l)
    (hcr : ReplaceAll (joinLines ls) (bytes "\r\n") (bytes "\n") = joinLines ls)
    (htrim : TrimSpace (joinLines ls) = joinLines ls) :
    splitLines (joinLines ls) = ls := by
  unfold splitLines
  rw [hcr, htrim, Split_joinLines ls hne h]

theorem parseRows_inverted (up : Str → Str) (n i s p u : Nat) (hin : i < n) (rows : List Str) :
    ∀ (models : List OllamaPsModel) (tot : F64),
      parseRows up n i s p u rows models tot =
        if ∀ l ∈ rows, l.length < u then some (models, tot) else none := by
  induction rows with
  | nil => intro models tot; simp [parseRows]
  | cons line rest ih =>
    intro models tot
    rw [parseRows]
    by_cases hl : line.length < u
    · rw [if_pos hl, ih]
      simp [hl]
    · rw [if_neg hl]
      have hrow : parseRow n i s p u line = none := by
        have : ¬ (n ≤ i ∧ i ≤ line.length) := by omega
        simp [parseRow, slice, this]
      rw [hrow]
      simp [hl]

theorem scale_constant :
    F64.lit 931323 1024000000 = F64.mul (F64.lit 1 1024) (F64.lit 931323 1000000) := by
  decide!

theorem scaleBy_of_parse (num : Str) (v mult : F64) (hv : ParseFloat num = some v) :
    scaleBy num mult = F64.mul v mult := by
  unfold scaleBy
  rw [ParseFloat_TrimSpace num v hv, hv]

theorem scaleBy_of_fail (num : Str) (mult : F64) (hv : ParseFloat (TrimSpace num) = none) :
    scaleBy num mult = F64.zero := by
  unfold scaleBy
  rw [hv]

theorem parseSizeToGiB_NaN_id : parseSizeToGiB id (bytes "NaNGiB") = F64.nan := by decide!

theorem scenarioA_id :
    parseOllamaPs id scenarioA =
      some ([{ Name := bytes "llama", ID := bytes "3:8", Size := bytes "b  a1",
               Processor := bytes "b2c3  4.7G",
               Until := bytes "B  100% GPU  5 minutes from now" }], F64.zero) := by
  decide!

theorem scenarioAligned_id :
    parseOllamaPs id scenarioAligned =
      some ([scenarioRecord], F64.mul (F64.lit 47 10) (F64.lit 931323 1000000)) := by
  decide!

theorem trailingText_id :
    parseOllamaPs id trailingText ≠
      parseOllamaPs id (joinLines (trailingLines.filter (fun l => decide (23 ≤ l.length)))) := by
  decide!

/-! ## The table parser -/

/-- C2. For every raw text whose lines (after line-ending normalisation and
trimming) are a header `first` and data rows `rows`, and whose upper-cased
header resolves the five column offsets in the order
NAME ≤ ID ≤ SIZE ≤ PROCESSOR ≤ UNTIL, `parseOllamaPs` returns (no slice is
out of range), and the records are exactly those of the data rows at least
as long as the UNTIL offset, in row order, each made of the trimmed slices
between consecutive offsets. -/
theorem parseOllamaPs_records (up : Str → Str) (output first : Str) (rows : List Str)
    (n i s p u : Nat)
    (hsplit : splitLines output = first :: rows)
    (hn : Index (ToUpper up first) (bytes "NAME") = some n)
    (hi : Index (ToUpper up first) (bytes "ID") = some i)
    (hs : Index (ToUpper up first) (bytes "SIZE") = some s)
    (hp : Index (ToUpper up first) (bytes "PROCESSOR") = some p)
    (hu : Index (ToUpper up first) (bytes "UNTIL") = some u)
    (hni : n ≤ i) (his : i ≤ s) (hsp : s ≤ p) (hpu : p ≤ u) :
    ∃ total, parseOllamaPs up output =
      some ((rows.filter (fun l => decide (u ≤ l.length))).map (rowRecord n i s p u), total) := by
  rw [parseOllamaPs_resolved up output first rows n i s p u hsplit hn hi hs hp hu,
    parseRows_inorder up n i s p u hni his hsp hpu rows [] F64.zero]
  exact ⟨_, rfl⟩

/-- C3. Whenever `parseOllamaPs` returns, the total is the sum, accumulated
from `0.0` in record order, of `parseSizeToGiB` of the `Size` field of the
returned records. -/
theorem parseOllamaPs_total (up : Str → Str) (output : Str) (recs : List OllamaPsModel)
    (total : F64) (h : parseOllamaPs up output = some (recs, total)) :
    total = sumSizes up F64.zero recs := by
  unfold parseOllamaPs at h
  split at h
  · simp only [Option.some.injEq, Prod.mk.injEq] at h
    simp [← h.1, ← h.2, sumSizes]
  · simp only [Option.some.injEq, Prod.mk.injEq] at h
    simp [← h.1, ← h.2, sumSizes]
  · dsimp only at h
    split at h
    · obtain ⟨new, h1, h2⟩ := parseRows_acc up _ _ _ _ _ _ _ _ _ _ h
      simp only [List.nil_append] at h1
      rw [h1, h2]
    · simp only [Option.some.injEq, Prod.mk.injEq] at h
      simp [← h.1, ← h.2, sumSizes]

/-- C7. When the upper-cased first line lacks one of the substrings NAME,
ID, SIZE, PROCESSOR, UNTIL, `parseOllamaPs` returns no record and the total
`0.0`, whatever rows follow. -/
theorem parseOllamaPs_malformed_header (up : Str → Str) (output : Str)
    (h : ¬ bytes "NAME" <:+: headerLine up output ∨ ¬ bytes "ID" <:+: headerLine up output ∨
         ¬ bytes "SIZE" <:+: headerLine up output ∨
         ¬ bytes "PROCESSOR" <:+: headerLine up output ∨
         ¬ bytes "UNTIL" <:+: headerLine up output) :
    parseOllamaPs up output = some ([], F64.zero) := by
  simp only [← Index_eq_none_iff, headerLine] at h
  unfold parseOllamaPs
  split
  · rfl
  · rfl
  · rename_i first rows _ heq
    rw [heq] at h
    simp only [List.headD_cons] at h
    dsimp only
    split
    · rename_i hn hi hs hp hu
      rw [hn, hi, hs, hp, hu] at h
      simp at h
    · rfl

/-- C8. A text that, after line-ending normalisation and trimming, has fewer
than two lines gives no record and the total `0.0`. -/
theorem parseOllamaPs_fewer_than_two_lines (up : Str → Str) (output : Str)
    (h : (splitLines output).length < 2) :
    parseOllamaPs up output = some ([], F64.zero) := by
  unfold parseOllamaPs
  split
  · rfl
  · rfl
  · rename_i first rows hne heq
    rw [heq] at h
    cases rows with
    | nil => exact absurd rfl hne
    | cons r rs => simp only [List.length_cons] at h; omega

/-- C6 (as amended). Rows shorter than the UNTIL offset change nothing:
`parseOllamaPs` gives the same result on the text as on every text whose
lines are the header and the rows at least as long as the UNTIL offset; the
text rebuilt from those lines is such a text when normalisation and trimming
leave it unchanged. -/
theorem parseOllamaPs_skip_short_rows (up : Str → Str) (output first : Str) (rows : List Str)
    (u : Nat) (hsplit : splitLines output = first :: rows)
    (hu : Index (ToUpper up first) (bytes "UNTIL") = some u) :
    (∀ output2, splitLines output2 = first :: rows.filter (fun l => decide (u ≤ l.length)) →
      parseOllamaPs up output2 = parseOllamaPs up output) ∧
    (ReplaceAll (joinLines (first :: rows.filter (fun l => decide (u ≤ l.length))))
        (bytes "\r\n") (bytes "\n") =
        joinLines (first :: rows.filter (fun l => decide (u ≤ l.length))) →
      TrimSpace (joinLines (first :: rows.filter (fun l => decide (u ≤ l.length)))) =
        joinLines (first :: rows.filter (fun l => decide (u ≤ l.length))) →
      parseOllamaPs up (joinLines (first :: rows.filter (fun l => decide (u ≤ l.length)))) =
        parseOllamaPs up output) := by
  have key : ∀ output2,
      splitLines output2 = first :: rows.filter (fun l => decide (u ≤ l.length)) →
      parseOllamaPs up output2 = parseOllamaPs up output := by
    intro output2 h2
    rw [parseOllamaPs_eq_parseLines up output2 _ _ h2,
      parseOllamaPs_eq_parseLines up output _ _ hsplit, parseLines_filter up first rows u hu]
  refine ⟨key, fun hcr htrim => key _ ?_⟩
  have hlines := splitLines_no_lf output
  rw [hsplit] at hlines
  refine splitLines_joinLines _ (by simp) ?_ hcr htrim
  intro l hl
  rcases List.mem_cons.mp hl with h1 | h1
  · rw [h1]; exact hlines first (List.mem_cons_self _ _)
  · exact hlines l (List.mem_cons_of_mem _ (List.mem_of_mem_filter h1))

/-- Witness of C2: the sample table, whose first and third rows are full. -/
theorem parseOllamaPs_records_witness :
    splitLines sampleText = sampleHeader :: sampleRows ∧
    (sampleRows.filter (fun l => decide (36 ≤ l.length))).map (rowRecord 0 11 19 26 36) =
      sampleRecords ∧
    ∃ total, parseOllamaPs id sampleText =
      some ((sampleRows.filter (fun l => decide (36 ≤ l.length))).map
        (rowRecord 0 11 19 26 36), total) :=
  ⟨by decide!, by decide!,
    parseOllamaPs_records id sampleText sampleHeader sampleRows 0 11 19 26 36
      (by decide!) (by decide!) (by decide!) (by decide!) (by decide!) (by decide!)
      (by decide) (by decide) (by decide) (by decide)⟩

/-- Witness of C3: the sample table. -/
theorem parseOllamaPs_total_witness :
    parseOllamaPs id sampleText =
      some (sampleRecords,
        F64.add (F64.add F64.zero (F64.mul (F64.lit 47 10) (F64.lit 931323 1000000)))
          (F64.mul (F64.lit 512 1) (F64.lit 931323 1024000000))) ∧
    F64.add (F64.add F64.zero (F64.mul (F64.lit 47 10) (F64.lit 931323 1000000)))
        (F64.mul (F64.lit 512 1) (F64.lit 931323 1024000000)) =
      sumSizes id F64.zero sampleRecords :=
  ⟨by decide!, parseOllamaPs_total id sampleText sampleRecords _ (by decide!)⟩

/-- Counterexample to C4 as stated: under the single-blank header no Unicode
case table makes scenario A yield one record with size "4.7GB". -/
theorem scenarioA_counterexample :
    ¬ ∃ (up : Str → Str) (m : OllamaPsModel) (total : F64),
      parseOllamaPs up scenarioA = some ([m], total) ∧ m.Size = bytes "4.7GB" := by
  rintro ⟨up, m, total, h, hm⟩
  rw [parseOllamaPs_ascii up id scenarioA (by decide!), scenarioA_id] at h
  simp only [Option.some.injEq, Prod.mk.injEq, List.cons.injEq, and_true] at h
  rw [← h.1] at hm
  exact absurd hm (by decide!)

/-- C4 (as amended). Under the single-blank header of scenario A the column
offsets are 0, 5, 8, 13 and 23, the one record has size "b  a1" and the
total is `0.0`; with the header padded so that the column names start at the
fields of the row, the one record has size "4.7GB" and the total is
`4.7 * 0.931323`. -/
theorem scenarioA_aligned (up : Str → Str) :
    parseOllamaPs up scenarioA =
      some ([{ Name := bytes "llama", ID := bytes "3:8", Size := bytes "b  a1",
               Processor := bytes "b2c3  4.7G",
               Until := bytes "B  100% GPU  5 minutes from now" }], F64.zero) ∧
    parseOllamaPs up scenarioAligned =
      some ([scenarioRecord], F64.mul (F64.lit 47 10) (F64.lit 931323 1000000)) ∧
    scenarioRecord.Size = bytes "4.7GB" :=
  ⟨(parseOllamaPs_ascii up id scenarioA (by decide!)).trans scenarioA_id,
   (parseOllamaPs_ascii up id scenarioAligned (by decide!)).trans scenarioAligned_id, rfl⟩

/-- C5, a defect of the code. The reordered header "ID NAME SIZE PROCESSOR UNTIL"
resolves all five offsets (NAME 3, ID 0, SIZE 8, PROCESSOR 13, UNTIL 23), and
then every text with a data row at least as long as the UNTIL offset makes
`parseOllamaPs` fail: the row passes the length guard and `line[3:0]` is out
of range. The claim asks for one record per such row, without failing. -/
theorem parseOllamaPs_reordered_header_fails (up : Str → Str) (output : Str)
    (rows : List Str) (hsplit : splitLines output = reorderedHeader :: rows)
    (hlong : ∃ l ∈ rows, 23 ≤ l.length) :
    Index (ToUpper up reorderedHeader) (bytes "NAME") = some 3 ∧
    Index (ToUpper up reorderedHeader) (bytes "ID") = some 0 ∧
    Index (ToUpper up reorderedHeader) (bytes "SIZE") = some 8 ∧
    Index (ToUpper up reorderedHeader) (bytes "PROCESSOR") = some 13 ∧
    Index (ToUpper up reorderedHeader) (bytes "UNTIL") = some 23 ∧
    parseOllamaPs up output = none := by
  have hup : ToUpper up reorderedHeader = reorderedHeader :=
    (ToUpper_ascii up reorderedHeader (by decide!)).trans (by decide!)
  have hn : Index (ToUpper up reorderedHeader) (bytes "NAME") = some 3 := by
    rw [hup]; decide!
  have hi : Index (ToUpper up reorderedHeader) (bytes "ID") = some 0 := by
    rw [hup]; decide!
  have hs : Index (ToUpper up reorderedHeader) (bytes "SIZE") = some 8 := by
    rw [hup]; decide!
  have hp : Index (ToUpper up reorderedHeader) (bytes "PROCESSOR") = some 13 := by
    rw [hup]; decide!
  have hu : Index (ToUpper up reorderedHeader) (bytes "UNTIL") = some 23 := by
    rw [hup]; decide!
  have hparse := parseOllamaPs_resolved up output reorderedHeader rows 3 0 8 13 23
    hsplit hn hi hs hp hu
  rw [parseRows_inverted up 3 0 8 13 23 (by decide) rows [] F64.zero] at hparse
  have hnot : ¬ ∀ l ∈ rows, l.length < 23 := by
    obtain ⟨l, hl, hlen⟩ := hlong
    intro hall
    have := hall l hl
    omega
  rw [if_neg hnot] at hparse
  exact ⟨hn, hi, hs, hp, hu, hparse⟩

/-- Witness of C5: the reordered header over one row whose fields stand under
the like-named columns and which reaches past the UNTIL offset. -/
theorem parseOllamaPs_reordered_header_fails_witness :
    splitLines reorderedText = [reorderedHeader, bytes "a1 llam 4GB  100% GPU  now"] ∧
    23 ≤ (bytes "a1 llam 4GB  100% GPU  now").length ∧
    parseOllamaPs id reorderedText = none :=
  ⟨by decide!, by decide!,
    (parseOllamaPs_reordered_header_fails id reorderedText
      [bytes "a1 llam 4GB  100% GPU  now"] (by decide!)
      ⟨bytes "a1 llam 4GB  100% GPU  now", List.mem_cons_self _ _, by decide!⟩).2.2.2.2.2⟩

/-- Counterexample to C6 as stated: the full row of `trailingText` ends in
blanks; once the short row after it is removed, trimming cuts the full row
below the UNTIL offset, and the result is not the same, for every Unicode
case table. -/
theorem skip_short_rows_counterexample :
    splitLines trailingText = trailingLines ∧
    Index (ToUpper id (bytes "NAME ID SIZE PROCESSOR UNTIL")) (bytes "UNTIL") = some 23 ∧
    trailingLines.filter (fun l => decide (23 ≤ l.length)) =
      [bytes "NAME ID SIZE PROCESSOR UNTIL", bytes "aaaa bb 4GB  cpu       "] ∧
    ¬ ∃ up : Str → Str,
      parseOllamaPs up (joinLines (trailingLines.filter (fun l => decide (23 ≤ l.length)))) =
        parseOllamaPs up trailingText := by
  refine ⟨by decide!, by decide!, by decide!, ?_⟩
  rintro ⟨up, h⟩
  rw [parseOllamaPs_ascii up id _ (by decide!),
    parseOllamaPs_ascii up id trailingText (by decide!)] at h
  exact trailingText_id h.symm

/-- Witness of C6 as amended: the sample table and the text rebuilt from its
header and its two full rows. -/
theorem parseOllamaPs_skip_short_rows_witness :
    splitLines sampleText = sampleHeader :: sampleRows ∧
    parseOllamaPs id
        (joinLines (sampleHeader :: sampleRows.filter (fun l => decide (36 ≤ l.length)))) =
      parseOllamaPs id sampleText :=
  ⟨by decide!,
    (parseOllamaPs_skip_short_rows id sampleText sampleHeader sampleRows 36
      (by decide!) (by decide!)).2 (by decide!) (by decide!)⟩

/-- Witness of C7: a header without PROCESSOR over a full row. -/
theorem parseOllamaPs_malformed_header_witness :
    ¬ bytes "PROCESSOR" <:+:
        headerLine id (bytes "NAME ID SIZE UNTIL\nllama3:8b  a1b2c3  4.7GB  100% GPU  now") ∧
    parseOllamaPs id (bytes "NAME ID SIZE UNTIL\nllama3:8b  a1b2c3  4.7GB  100% GPU  now") =
      some ([], F64.zero) :=
  ⟨(Index_eq_none_iff _ _).mp (by decide!),
    parseOllamaPs_malformed_header id
      (bytes "NAME ID SIZE UNTIL\nllama3:8b  a1b2c3  4.7GB  100% GPU  now")
      (Or.inr (Or.inr (Or.inr (Or.inl ((Index_eq_none_iff _ _).mp (by decide!))))))⟩

/-- Witness of C8: the empty text, white space only, a lone header, and a
header followed by blank lines. -/
theorem parseOllamaPs_fewer_than_two_lines_witness :
    parseOllamaPs id (bytes "") = some ([], F64.zero) ∧
    parseOllamaPs id (bytes " \t\r\n \n") = some ([], F64.zero) ∧
    parseOllamaPs id (bytes "NAME ID SIZE PROCESSOR UNTIL") = some ([], F64.zero) ∧
    parseOllamaPs id (bytes "NAME ID SIZE PROCESSOR UNTIL\r\n\r\n  \n") =
      some ([], F64.zero) :=
  ⟨parseOllamaPs_fewer_than_two_lines id _ (by decide!),
   parseOllamaPs_fewer_than_two_lines id _ (by decide!),
   parseOllamaPs_fewer_than_two_lines id _ (by decide!),
   parseOllamaPs_fewer_than_two_lines id _ (by decide!)⟩

/-! ## The size converter: the claims -/

/-- C1. `parseSizeToGiB` follows the unit table: when the trimmed, upper-cased
literal is a number that `ParseFloat` reads as `v` (of either sign, an
infinity or a NaN included) followed by GIB, GB, MIB or MB, the result is
`v * 1.0`, `v * 0.931323`, `v * (1/1024)` or `v * ((1/1024) * 0.931323)`;
and "24GiB" gives `24.0`, "512MiB" gives `0.5`, "24GB" gives `24 * 0.931323`
and "512MB" gives `512 * (1/1024) * 0.931323`. -/
theorem parseSizeToGiB_unit_table :
    (∀ (up : Str → Str) (s num : Str) (v : F64), ParseFloat num = some v →
      (ToUpper up (TrimSpace s) = num ++ bytes "GIB" →
        parseSizeToGiB up s = F64.mul v (F64.lit 1 1)) ∧
      (ToUpper up (TrimSpace s) = num ++ bytes "GB" →
        parseSizeToGiB up s = F64.mul v (F64.lit 931323 1000000)) ∧
      (ToUpper up (TrimSpace s) = num ++ bytes "MIB" →
        parseSizeToGiB up s = F64.mul v (F64.lit 1 1024)) ∧
      (ToUpper up (TrimSpace s) = num ++ bytes "MB" →
        parseSizeToGiB up s =
          F64.mul v (F64.mul (F64.lit 1 1024) (F64.lit 931323 1000000)))) ∧
    (∀ up : Str → Str,
      parseSizeToGiB up (bytes "24GiB") = F64.lit 24 1 ∧
      parseSizeToGiB up (bytes "512MiB") = F64.lit 1 2 ∧
      parseSizeToGiB up (bytes "24GB") = F64.mul (F64.lit 24 1) (F64.lit 931323 1000000) ∧
      parseSizeToGiB up (bytes "512MB") =
        F64.mul (F64.mul (F64.lit 512 1) (F64.lit 1 1024)) (F64.lit 931323 1000000)) := by
  constructor
  · intro up s num v hv
    refine ⟨fun ht => ?_, fun ht => ?_, fun ht => ?_, fun ht => ?_⟩
    · rw [parseSizeToGiB_GIB up s num ht, scaleBy_of_parse num v _ hv]
    · rw [parseSizeToGiB_GB up s num ht, scaleBy_of_parse num v _ hv]
    · rw [parseSizeToGiB_MIB up s num ht, scaleBy_of_parse num v _ hv]
    · rw [parseSizeToGiB_MB up s num ht, scaleBy_of_parse num v _ hv, scale_constant]
  · intro up
    refine ⟨?_, ?_, ?_, ?_⟩
    · exact (parseSizeToGiB_ascii up id _ (by decide!)).trans (by decide!)
    · exact (parseSizeToGiB_ascii up id _ (by decide!)).trans (by decide!)
    · exact (parseSizeToGiB_ascii up id _ (by decide!)).trans (by decide!)
    · exact (parseSizeToGiB_ascii up id _ (by decide!)).trans (by decide!)

/-- Witness of C1: a negative literal in lower case with blanks around it. -/
theorem parseSizeToGiB_unit_table_witness :
    ParseFloat (bytes "-1.5E1") = some (F64.round true 15 1) ∧
    ToUpper id (TrimSpace (bytes "  -1.5e1gb ")) = bytes "-1.5E1" ++ bytes "GB" ∧
    parseSizeToGiB id (bytes "  -1.5e1gb ") =
      F64.mul (F64.round true 15 1) (F64.lit 931323 1000000) :=
  ⟨by decide!, by decide!,
    (parseSizeToGiB_unit_table.1 id (bytes "  -1.5e1gb ") (bytes "-1.5E1")
      (F64.round true 15 1) (by decide!)).2.1 (by decide!)⟩

/-- Counterexample to C9 as stated: for no Unicode case table is the result
on "NaNGiB" the value `0.0`. -/
theorem parseSizeToGiB_NaN_counterexample :
    ¬ ∃ up : Str → Str, parseSizeToGiB up (bytes "NaNGiB") = F64.zero := by
  rintro ⟨up, h⟩
  rw [parseSizeToGiB_ascii up id _ (by decide!), parseSizeToGiB_NaN_id] at h
  cases h

/-- C9 (as amended). `ParseFloat` reads "NAN" as a NaN without error, and
`parseSizeToGiB` applied to "NaNGiB" returns that NaN times `1.0`, a NaN. -/
theorem parseSizeToGiB_NaN (up : Str → Str) :
    ParseFloat (bytes "NAN") = some F64.nan ∧
    parseSizeToGiB up (bytes "NaNGiB") = F64.nan :=
  ⟨by decide!, (parseSizeToGiB_ascii up id _ (by decide!)).trans parseSizeToGiB_NaN_id⟩

/-- C10. When the trimmed, upper-cased literal ends in none of GIB, GB, MIB,
MB, or ends in one of them and the text before it, trimmed, is rejected by
`ParseFloat`, `parseSizeToGiB` returns `0.0`. -/
theorem parseSizeToGiB_zero_on_failure (up : Str → Str) (s : Str)
    (h : (∀ p ∈ unitTable, ¬ p.1 <:+ ToUpper up (TrimSpace s)) ∨
         ∃ num suf mult, (suf, mult) ∈ unitTable ∧ ToUpper up (TrimSpace s) = num ++ suf ∧
           ParseFloat (TrimSpace num) = none) :
    parseSizeToGiB up s = F64.zero := by
  rcases h with h | ⟨num, suf, mult, hm, ht, hv⟩
  · exact parseSizeToGiB_no_unit up s h
  · rw [parseSizeToGiB_unit up s num suf mult hm ht, scaleBy_of_fail num mult hv]

/-- Witness of C10: "badunit" has no known unit; "GB" and "abcMB" have a unit
and no number before it. -/
theorem parseSizeToGiB_zero_on_failure_witness :
    parseSizeToGiB id (bytes "badunit") = F64.zero ∧
    parseSizeToGiB id (bytes "GB") = F64.zero ∧
    parseSizeToGiB id (bytes "abcMB") = F64.zero :=
  ⟨parseSizeToGiB_zero_on_failure id (bytes "badunit") (Or.inl (by decide!)),
   parseSizeToGiB_zero_on_failure id (bytes "GB")
     (Or.inr ⟨[], bytes "GB", F64.lit 931323 1000000, by decide!, by decide!, by decide!⟩),
   parseSizeToGiB_zero_on_failure id (bytes "abcMB")
     (Or.inr ⟨bytes "ABC", bytes "MB", F64.lit 931323 1024000000,
       by decide!, by decide!, by decide!⟩)⟩

end OllamaViewer
